import Mathlib

/-!
Verification development for the `slides_translator_agent` repository.

The pipeline in `slides_translator_agent/tools.py` is embedded shallowly:
Python strings become lists of characters, dictionaries become association
lists in insertion order, sets become duplicate-free lists, and the external
Google API / LLM collaborators become explicit oracle parameters.  The
functions below keep the names and the control flow of the source functions
(`extract_presentation_texts`, `translate_texts`, `batch_update_presentation`,
`report_usage`, `negotiate_creds`, `copy_presentation`,
`translate_presentation`).
-/

namespace SlidesTranslator

/-- A Python `str` is modelled as a list of characters. -/
abbrev Str := List Char

/-- Whitespace characters removed by Python `str.strip()` (the ASCII set:
space, tab, newline, carriage return, vertical tab, form feed). -/
def pyIsSpace (c : Char) : Bool :=
  c == ' ' || c == '\t' || c == '\n' || c == '\r' || c == Char.ofNat 11 || c == Char.ofNat 12

/-- Matches `re.search("[a-zA-Z]", ...)` on a single character: an ASCII letter. -/
def isAsciiAlpha (c : Char) : Bool :=
  ('a' ≤ c && c ≤ 'z') || ('A' ≤ c && c ≤ 'Z')

/-- Whether `re.search("[a-zA-Z]", s)` finds a match: some character is an ASCII letter. -/
def hasAlpha (s : Str) : Bool := s.any isAsciiAlpha

/-- Left part of Python `str.strip()`: drop leading whitespace. -/
def lstrip (s : Str) : Str := s.dropWhile pyIsSpace

/-- Right part of Python `str.strip()`: drop trailing whitespace. -/
def rstrip (s : Str) : Str := (s.reverse.dropWhile pyIsSpace).reverse

/-- Python `str.strip()`: drop leading and trailing whitespace. -/
def pyStrip (s : Str) : Str := rstrip (lstrip s)

/-- The value under a `"textRun"` key: `{"content": ...}`. -/
structure TextRun where
  content : Str
deriving DecidableEq

/-- One entry of `shape["textElements"]`; it may or may not carry a `"textRun"` key
(the walker tests `if "textRun" in text_element`). -/
structure TextElement where
  textRun : Option TextRun
deriving DecidableEq

/-- The value under a `"shape"` key of a page element: whether the `"text"` key is
present (the walker tests `"text" in element["shape"]`) and the list
`element["shape"].get("textElements", [])`. -/
structure Shape where
  hasTextKey : Bool
  textElements : List TextElement
deriving DecidableEq

/-- A table cell's text content (its own list of text elements). -/
structure TableCell where
  textElements : List TextElement
deriving DecidableEq

/-- A page element of a slide: a tagged variant.  The walker in the source only
tests `if "shape" in element`; `group` and `table` elements carry no `"shape"`
key, so the walker's loop body does nothing for them. -/
inductive PageElement where
  | shape (s : Shape)
  | group (children : List PageElement)
  | table (rows : List (List TableCell))

/-- A slide: `slide["objectId"]` and `slide.get("pageElements", [])`. -/
structure Slide where
  objectId : Str
  pageElements : List PageElement

/-- The `texts_to_locations` dictionary: association list from a text fragment to
its set of slide ids (a duplicate-free list), in insertion order. -/
abbrev Index := List (Str × List Str)

/-- Python set insertion: `locations.add(slide_id)`. -/
def insertLoc (locs : List Str) (slide_id : Str) : List Str :=
  if slide_id ∈ locs then locs else locs ++ [slide_id]

/-- The walker's index update: create the entry if absent, then add the slide id
to its location set (`texts_to_locations[content].add(slide_id)`). -/
def indexInsert : Index → Str → Str → Index
  | [], content, slide_id => [(content, [slide_id])]
  | (k, locs) :: rest, content, slide_id =>
    if k = content then (k, insertLoc locs slide_id) :: rest
    else (k, locs) :: indexInsert rest content slide_id

/-- Dictionary read with default: `texts_to_locations.get(key)` collapsed with the
empty set (the source distinguishes `None` from the empty set only through
truthiness, which this collapse preserves). -/
def getLocs : Index → Str → List Str
  | [], _ => []
  | (k, locs) :: rest, key => if k = key then locs else getLocs rest key

/-- Key list of the index, in insertion order (`list(texts_to_locations.keys())`,
the source's `unique_texts`). -/
def keys (idx : Index) : List Str := idx.map Prod.fst

/-- The walker's inner loop over `element["shape"].get("textElements", [])`:
for each entry holding a `"textRun"`, strip the content, keep it only
`if content and re.search("[a-zA-Z]", content)`, and record the slide id. -/
def processTextElements (idx : Index) (slide_id : Str) : List TextElement → Index
  | [] => idx
  | te :: rest =>
    match te.textRun with
    | some tr =>
      let content := pyStrip tr.content
      if content ≠ [] ∧ hasAlpha content = true then
        processTextElements (indexInsert idx content slide_id) slide_id rest
      else
        processTextElements idx slide_id rest
    | none => processTextElements idx slide_id rest

/-- The walker's dispatch on one page element: only elements with a `"shape"` key
whose shape has a `"text"` key contribute; `group` and `table` elements fall
through the `if "shape" in element and "text" in element["shape"]` test. -/
def processElement (idx : Index) (slide_id : Str) : PageElement → Index
  | .shape s => if s.hasTextKey then processTextElements idx slide_id s.textElements else idx
  | .group _ => idx
  | .table _ => idx

/-- The walker's loop over `slide.get("pageElements", [])`. -/
def processElements (idx : Index) (slide_id : Str) : List PageElement → Index
  | [] => idx
  | e :: rest => processElements (processElement idx slide_id e) slide_id rest

/-- The walker's outer loop over slides, threading the growing index. -/
def extractAux (idx : Index) : List Slide → Index
  | [] => idx
  | s :: rest => extractAux (processElements idx s.objectId s.pageElements) rest

/-- Embedding of `extract_presentation_texts` (tools.py): build
`texts_to_locations` from the presentation's slides, starting from `{}`. -/
def extract_presentation_texts (slides : List Slide) : Index := extractAux [] slides

/-- The fragment one text element contributes, if any: the observation function
read off from the body of the walker's inner loop (a `"textRun"` entry whose
stripped content is nonempty and has a letter). -/
def runFragment (te : TextElement) : Option Str :=
  te.textRun.bind fun tr =>
    let content := pyStrip tr.content
    if content ≠ [] ∧ hasAlpha content = true then some content else none

/-- The fragments a text-element list contributes, in order. -/
def runFragments (tes : List TextElement) : List Str := tes.filterMap runFragment

/-- The fragments one page element contributes, read off from `processElement`. -/
def elementFragments : PageElement → List Str
  | .shape s => if s.hasTextKey then runFragments s.textElements else []
  | .group _ => []
  | .table _ => []

/-- All fragments a slide contributes, in traversal order. -/
def slideFragments (s : Slide) : List Str := s.pageElements.flatMap elementFragments

/-- Boolean test: does a fragment occur (post filter) somewhere on a slide. -/
def occursOnSlide (frag : Str) (s : Slide) : Bool := decide (frag ∈ slideFragments s)

/-- Well-formedness of the index: keys are duplicate-free and every location set
is duplicate-free and nonempty. -/
def IndexWF (idx : Index) : Prop :=
  (keys idx).Nodup ∧ ∀ e ∈ idx, e.2.Nodup ∧ e.2 ≠ []

/-- Whether a page element is a Shape (carries a `"shape"` key). -/
def isShapeElement : PageElement → Bool
  | .shape _ => true
  | .group _ => false
  | .table _ => false

/-- The same slides with every non-Shape page element removed. -/
def restrictToShapes (slides : List Slide) : List Slide :=
  slides.map fun s => ⟨s.objectId, s.pageElements.filter isShapeElement⟩

/-- Token usage metadata returned with a model response
(`response.usage_metadata`). -/
structure UsageMetadata where
  prompt_token_count : Nat
  candidates_token_count : Nat
deriving DecidableEq

/-- Python dict write `d[k] = v` over an association list: overwrite the first
binding of `k` in place, else append a new binding. -/
def dictInsert : List (Str × Str) → Str → Str → List (Str × Str)
  | [], k, v => [(k, v)]
  | (k0, v0) :: rest, k, v =>
    if k0 = k then (k0, v) :: rest else (k0, v0) :: dictInsert rest k v

/-- Python dict read `d.get(k)` over an association list. -/
def dictGet : List (Str × Str) → Str → Option Str
  | [], _ => none
  | (k0, v0) :: rest, k => if k0 = k then some v0 else dictGet rest k

/-- Accumulating loop of `translate_texts` (tools.py): the worker pool's fan-in.
Each text is handed to the oracle `translate_one`, which models one
`client.generate_content` call: `none` is a raised exception (the `except`
branch returns `text, None, None`), `some (rtext, u)` is a response with body
`rtext` (then `translation = response.text.strip()`) and usage metadata `u`
(`None` when `response.usage_metadata` is absent).  The collector then runs
`if usage: usages.append(usage)` and `if translation: translations[text] =
translation`.  Thread-completion order is modelled as submission order; the
resulting dictionary and usage multiset do not depend on it. -/
def translate_texts_aux (translate_one : Str → Option (Str × Option UsageMetadata))
    (translations : List (Str × Str)) (usages : List UsageMetadata) :
    List Str → List (Str × Str) × List UsageMetadata
  | [] => (translations, usages)
  | text :: rest =>
    match translate_one text with
    | none => translate_texts_aux translate_one translations usages rest
    | some (rtext, u) =>
      let translation := pyStrip rtext
      let usages1 := match u with
        | some usage => usages ++ [usage]
        | none => usages
      let translations1 :=
        if translation ≠ [] then dictInsert translations text translation else translations
      translate_texts_aux translate_one translations1 usages1 rest

/-- Embedding of `translate_texts` (tools.py): returns the `translations`
dictionary and the `usages` list. -/
def translate_texts (translate_one : Str → Option (Str × Option UsageMetadata))
    (texts : List Str) : List (Str × Str) × List UsageMetadata :=
  translate_texts_aux translate_one [] [] texts

/-- The net outcome of the collector for one text: the value stored in
`translations`, if any. -/
def translationOutcome (translate_one : Str → Option (Str × Option UsageMetadata))
    (text : Str) : Option Str :=
  (translate_one text).bind fun r =>
    let translation := pyStrip r.1
    if translation ≠ [] then some translation else none

/-- Sorting key of `batch_update_presentation`:
`sorted(..., key=lambda item: len(item[0]), reverse=True)`, i.e. descending
length of the original fragment. -/
def lenDescRel (a b : Str × Str) : Prop := b.1.length ≤ a.1.length

instance : DecidableRel lenDescRel := fun a b => Nat.decLe b.1.length a.1.length

instance : IsTotal (Str × Str) lenDescRel :=
  ⟨fun a b => Nat.le_total b.1.length a.1.length⟩

instance : IsTrans (Str × Str) lenDescRel :=
  ⟨fun _ _ _ hab hbc => Nat.le_trans hbc hab⟩

/-- One `replaceAllText` request built by `batch_update_presentation`. -/
structure ReplaceAllTextRequest where
  replaceText : Str
  pageObjectIds : List Str
  containsText : Str
  matchCase : Bool
deriving DecidableEq

/-- The loop body of the request-building phase of `batch_update_presentation`:
an item `(text, translation)` yields a request only `if translation.strip()`
and only if `texts_to_locations.get(text)` is truthy. -/
def mkReplaceRequest (texts_to_locations : Index) (item : Str × Str) :
    Option ReplaceAllTextRequest :=
  if pyStrip item.2 ≠ [] then
    let page_ids := getLocs texts_to_locations item.1
    if page_ids ≠ [] then
      some { replaceText := item.2, pageObjectIds := page_ids,
             containsText := item.1, matchCase := true }
    else none
  else none

/-- Request-building phase of `batch_update_presentation` (tools.py): sort the
translation items by descending original length, then run the loop body over
them in order, collecting the emitted requests. -/
def batch_update_requests (translations : List (Str × Str)) (texts_to_locations : Index) :
    List ReplaceAllTextRequest :=
  let sorted_translations := List.insertionSort lenDescRel translations
  sorted_translations.filterMap (mkReplaceRequest texts_to_locations)

/-- Descending-length order on emitted requests, keyed by the original
fragment (`containsText`). -/
def reqLenDesc (r1 r2 : ReplaceAllTextRequest) : Prop :=
  r2.containsText.length ≤ r1.containsText.length

/-- One string is a contiguous substring of another. -/
def isSubstringOf (a b : Str) : Prop := ∃ pre post, b = pre ++ a ++ post

/-- The source's `batch_size = 50`. -/
def batch_size : Nat := 50

/-- Batching phase of `batch_update_presentation`: slices
`requests[start:start+batch_size]` for `start in range(0, len(requests),
batch_size)`. -/
def chunks (l : List ReplaceAllTextRequest) : List (List ReplaceAllTextRequest) :=
  if _h : l = [] then [] else l.take batch_size :: chunks (l.drop batch_size)
termination_by l.length
decreasing_by
  simp only [List.length_drop]
  have : 0 < l.length := List.length_pos.mpr _h
  simp only [batch_size]
  omega

/-- The ordered batches submitted by `batch_update_presentation`. -/
def batch_update_batches (translations : List (Str × Str)) (texts_to_locations : Index) :
    List (List ReplaceAllTextRequest) :=
  chunks (batch_update_requests translations texts_to_locations)

/-- The price table of `report_usage` (tools.py), with the per-token prices as
exact rationals. -/
def prices : List (Str × (ℚ × ℚ)) :=
  [("gemini-2.5-pro".toList, ((1.25 : ℚ) / 1000000, (10.00 : ℚ) / 1000000)),
   ("gemini-2.5-flash".toList, ((0.30 : ℚ) / 1000000, (2.50 : ℚ) / 1000000)),
   ("gemini-2.5-flash-lite".toList, ((0.1 : ℚ) / 1000000, (0.4 : ℚ) / 1000000))]

/-- Price-table lookup `prices.get(model_name, {"input": 0, "output": 0})`. -/
def priceTableFor : List (Str × (ℚ × ℚ)) → Str → ℚ × ℚ
  | [], _ => (0, 0)
  | (k, p) :: rest, model_name => if k = model_name then p else priceTableFor rest model_name

/-- The report built by `report_usage`. -/
structure UsageReport where
  total_input_tokens : Nat
  total_output_tokens : Nat
  total_cost_usd : ℚ
deriving DecidableEq

/-- Embedding of `report_usage` (tools.py): sum prompt and candidate token
counts over all usages and price them with the model's table (zero prices for
an unknown model). -/
def report_usage (usages : List UsageMetadata) (model_name : Str) : UsageReport :=
  let price_table := priceTableFor prices model_name
  let total_input_tokens : Nat := usages.foldl (fun acc u => acc + u.prompt_token_count) 0
  let total_output_tokens : Nat := usages.foldl (fun acc u => acc + u.candidates_token_count) 0
  let input_cost : ℚ := (total_input_tokens : ℚ) * price_table.1
  let output_cost : ℚ := (total_output_tokens : ℚ) * price_table.2
  { total_input_tokens := total_input_tokens,
    total_output_tokens := total_output_tokens,
    total_cost_usd := input_cost + output_cost }

/-- State of a cached OAuth token as `negotiate_creds` observes it:
`parse_ok` is whether `Credentials.from_authorized_user_info` succeeds,
`refresh_ok` whether `creds.refresh(Request())` succeeds. -/
structure CachedCreds where
  parse_ok : Bool
  valid : Bool
  expired : Bool
  has_refresh_token : Bool
  refresh_ok : Bool
deriving DecidableEq

/-- A completed OAuth exchange (`tool_context.get_auth_response(...)`). -/
structure AuthResponse where
  access_token : Str
  refresh_token : Str
deriving DecidableEq

/-- The part of the tool context `negotiate_creds` reads: the cached token (if
the state holds a truthy one) and the pending auth response (if any). -/
structure ToolState where
  cached_token : Option CachedCreds
  auth_response : Option AuthResponse
deriving DecidableEq

/-- Which credentials `negotiate_creds` hands back. -/
inductive Creds where
  | cached (c : CachedCreds)
  | refreshed (c : CachedCreds)
  | exchanged (r : AuthResponse)
deriving DecidableEq

/-- Return value of `negotiate_creds`: either `Credentials`, or the dict
`{"pending": True, "message": "Awaiting user authentication"}`. -/
inductive NegotiateOutcome where
  | credentials (c : Creds)
  | pendingDict
deriving DecidableEq

/-- Embedding of `negotiate_creds` (tools.py).  Step 1 uses the cached token:
a parse failure or a failed refresh lands in the `except` branch (which pops
the cache and falls through); a token that is neither valid nor refreshable
falls through as well.  Step 2 uses an auth response if present.  Step 3
requests credentials and returns the pending dict.  The cache writes to
`tool_context.state` are side effects not modelled here. -/
def negotiate_creds (state : ToolState) : NegotiateOutcome :=
  let step2 : NegotiateOutcome :=
    match state.auth_response with
    | some r => .credentials (.exchanged r)
    | none => .pendingDict
  match state.cached_token with
  | some t =>
    if t.parse_ok = false then step2
    else if t.valid then .credentials (.cached t)
    else if t.expired && t.has_refresh_token then
      if t.refresh_ok then .credentials (.refreshed t) else step2
    else step2
  | none => step2

/-- External observations of `copy_presentation`: the original presentation's
title (`original_presentation.get("title", "Untitled")` distinguishes presence)
and the file id minted by the Drive copy call. -/
structure CopyEnv where
  original_title : Option Str
  copy_id : Str

/-- Result dictionary of `copy_presentation`. -/
structure CopyResult where
  presentation_id : Str
  presentation_url : Str
  presentation_title : Str
deriving DecidableEq

/-- External service calls issued by the active pipeline, in order. -/
inductive Action where
  | buildDriveService
  | buildSlidesService
  | createGenaiClient
  | getPresentation (id : Str)
  | copyFile (id : Str)
deriving DecidableEq

/-- Embedding of `copy_presentation` (tools.py): fetch the original, default its
title to "Untitled", copy the file under the title
`f"{original_presentation_title} ({target_language})"`, and return the new id,
url and title.  The second component lists the service calls made. -/
def copy_presentation (env : CopyEnv) (presentation_id target_language : Str) :
    CopyResult × List Action :=
  let original_presentation_title := env.original_title.getD "Untitled".toList
  let copy_presentation_title :=
    original_presentation_title ++ " (".toList ++ target_language ++ ")".toList
  let copy_presentation_id := env.copy_id
  let copy_presentation_url :=
    "https://docs.google.com/presentation/d/".toList ++ copy_presentation_id ++ "/edit".toList
  (⟨copy_presentation_id, copy_presentation_url, copy_presentation_title⟩,
   [.getPresentation presentation_id, .copyFile presentation_id])

/-- Return value of the active `translate_presentation` tool: either the auth
request dict passed through from `negotiate_creds`, or the final report, an
association list of string fields. -/
inductive ToolResult where
  | authRequest (pending : Bool) (message : Str)
  | report (fields : List (Str × Str))
deriving DecidableEq

/-- The message of the pending dict. -/
def awaitingMessage : Str := "Awaiting user authentication".toList

/-- Embedding of the active `translate_presentation` (tools.py): negotiate
credentials; if a dict comes back, return it unchanged; otherwise initialize
the services, copy the presentation and return the report, which holds only
`new_presentation_url` (every other pipeline stage and report field in the
source is commented out).  The second component is the trace of service
calls. -/
def translate_presentation (state : ToolState) (env : CopyEnv)
    (presentation_id target_language : Str) : ToolResult × List Action :=
  match negotiate_creds state with
  | .pendingDict => (.authRequest true awaitingMessage, [])
  | .credentials _ =>
    let init : List Action := [.buildDriveService, .buildSlidesService, .createGenaiClient]
    let copied := copy_presentation env presentation_id target_language
    let new_presentation_url := copied.1.presentation_url
    (.report [("new_presentation_url".toList, new_presentation_url)],
     init ++ copied.2)

/-- A slide whose only text sits inside a Group (a shape nested in the group)
and inside a Table cell. -/
def c2GroupDoc : List Slide :=
  [⟨"s1".toList,
    [.group [.shape ⟨true, [⟨some ⟨"Hello".toList⟩⟩]⟩],
     .table [[⟨[⟨some ⟨"World".toList⟩⟩]⟩]]]⟩]

/-- The same texts placed in top-level Shapes instead. -/
def c2ShapeDoc : List Slide :=
  [⟨"s1".toList,
    [.shape ⟨true, [⟨some ⟨"Hello".toList⟩⟩]⟩,
     .shape ⟨true, [⟨some ⟨"World".toList⟩⟩]⟩]⟩]

/-- A document whose runs are a numeric-only string and a padded word. -/
def c6Slides : List Slide :=
  [⟨"s1".toList, [.shape ⟨true, [⟨some ⟨"  42 ".toList⟩⟩, ⟨some ⟨" Hello ".toList⟩⟩]⟩]⟩]

/-- Two slides; "Hello" occurs twice on the first slide and once on the second. -/
def c7Slides : List Slide :=
  [⟨"s1".toList, [.shape ⟨true, [⟨some ⟨"Hello".toList⟩⟩, ⟨some ⟨"Hello".toList⟩⟩]⟩]⟩,
   ⟨"s2".toList, [.shape ⟨true, [⟨some ⟨"Hello".toList⟩⟩, ⟨some ⟨"World".toList⟩⟩]⟩]⟩]

/-- Concrete translations where one original fragment is a proper substring of
another: "World" inside "Hello World". -/
def c3Translations : List (Str × Str) :=
  [("World".toList, "Monde".toList), ("Hello World".toList, "Bonjour le monde".toList)]

/-- Concrete index giving both fragments a recorded location. -/
def c3Index : Index :=
  [("World".toList, ["s1".toList]), ("Hello World".toList, ["s1".toList, "s2".toList])]

/-- A translation oracle that fails on the text "bad" and succeeds elsewhere. -/
def c4Oracle (t : Str) : Option (Str × Option UsageMetadata) :=
  if t = "bad".toList then none else some (t ++ "!".toList, some ⟨1, 2⟩)

/-- A tool state holding a valid cached token, so negotiation yields
credentials. -/
def c1State : ToolState := ⟨some ⟨true, true, false, false, false⟩, none⟩

/-- A concrete environment for the copy step. -/
def c1Env : CopyEnv := ⟨some "Deck".toList, "xyz".toList⟩

/-! ### Lemmas about the index primitives -/

theorem mem_insertLoc {locs : List Str} {slide_id a : Str} :
    a ∈ insertLoc locs slide_id ↔ a ∈ locs ∨ a = slide_id := by
  unfold insertLoc
  by_cases h : slide_id ∈ locs
  · simp only [h, if_pos]
    constructor
    · exact Or.inl
    · rintro (ha | rfl)
      · exact ha
      · exact h
  · simp [h]

theorem nodup_insertLoc {locs : List Str} {slide_id : Str} (h : locs.Nodup) :
    (insertLoc locs slide_id).Nodup := by
  unfold insertLoc
  by_cases hm : slide_id ∈ locs
  · simpa [hm]
  · simp [hm, List.nodup_append, h]

theorem insertLoc_ne_nil (locs : List Str) (slide_id : Str) :
    insertLoc locs slide_id ≠ [] := by
  intro hc
  have hmem : slide_id ∈ insertLoc locs slide_id := mem_insertLoc.mpr (Or.inr rfl)
  rw [hc] at hmem
  cases hmem

theorem insertLoc_idem (locs : List Str) (slide_id : Str) :
    insertLoc (insertLoc locs slide_id) slide_id = insertLoc locs slide_id := by
  have hm : slide_id ∈ insertLoc locs slide_id := mem_insertLoc.mpr (Or.inr rfl)
  rw [insertLoc, if_pos hm]

theorem getLocs_indexInsert (idx : Index) (content slide_id k : Str) :
    getLocs (indexInsert idx content slide_id) k =
      if k = content then insertLoc (getLocs idx k) slide_id else getLocs idx k := by
  induction idx with
  | nil =>
    by_cases h : k = content
    · subst h; simp [indexInsert, getLocs, insertLoc]
    · simp [indexInsert, getLocs, insertLoc, h, Ne.symm h]
  | cons e rest ih =>
    obtain ⟨k0, locs⟩ := e
    by_cases h0 : k0 = content
    · subst h0
      by_cases hk : k = k0
      · subst hk; simp [indexInsert, getLocs]
      · simp [indexInsert, getLocs, hk, Ne.symm hk]
    · by_cases hk : k0 = k
      · subst hk
        have hne : ¬k0 = content := h0
        simp [indexInsert, getLocs, h0, hne]
      · simp [indexInsert, getLocs, h0, hk, ih]

theorem keys_indexInsert_eq (idx : Index) (content slide_id : Str) :
    keys (indexInsert idx content slide_id) =
      if content ∈ keys idx then keys idx else keys idx ++ [content] := by
  induction idx with
  | nil => simp [indexInsert, keys]
  | cons e0 rest ih =>
    obtain ⟨k0, locs0⟩ := e0
    by_cases h0 : k0 = content
    · subst h0
      simp [indexInsert, keys]
    · simp only [keys] at ih ⊢
      simp only [indexInsert, if_neg h0, List.map_cons, ih]
      by_cases hm : content ∈ List.map Prod.fst rest
      · simp [hm, Ne.symm h0]
      · simp [hm, Ne.symm h0]

theorem mem_keys_indexInsert {idx : Index} {content slide_id k : Str} :
    k ∈ keys (indexInsert idx content slide_id) ↔ k ∈ keys idx ∨ k = content := by
  rw [keys_indexInsert_eq]
  by_cases hm : content ∈ keys idx
  · rw [if_pos hm]
    constructor
    · exact Or.inl
    · rintro (h | rfl)
      · exact h
      · exact hm
  · rw [if_neg hm]
    simp [List.mem_append]

theorem locsWF_indexInsert {idx : Index} (h : ∀ e ∈ idx, e.2.Nodup ∧ e.2 ≠ [])
    (content slide_id : Str) :
    ∀ e ∈ indexInsert idx content slide_id, e.2.Nodup ∧ e.2 ≠ [] := by
  induction idx with
  | nil =>
    intro e he
    simp only [indexInsert, List.mem_singleton] at he
    subst he
    exact ⟨List.nodup_singleton _, by simp⟩
  | cons e0 rest ih =>
    obtain ⟨k0, locs0⟩ := e0
    intro e he
    by_cases h0 : k0 = content
    · simp only [indexInsert, if_pos h0] at he
      rcases List.mem_cons.mp he with rfl | hm
      · have h1 := h (k0, locs0) (List.mem_cons_self _ _)
        exact ⟨nodup_insertLoc h1.1, insertLoc_ne_nil _ _⟩
      · exact h e (List.mem_cons_of_mem _ hm)
    · simp only [indexInsert, if_neg h0] at he
      rcases List.mem_cons.mp he with rfl | hm
      · exact h (k0, locs0) (List.mem_cons_self _ _)
      · exact ih (fun e1 he1 => h e1 (List.mem_cons_of_mem _ he1)) e hm

theorem indexWF_nil : IndexWF [] := by
  constructor
  · simp [keys]
  · intro e he; cases he

theorem indexWF_indexInsert {idx : Index} (h : IndexWF idx) (content slide_id : Str) :
    IndexWF (indexInsert idx content slide_id) := by
  obtain ⟨hkeys, hlocs⟩ := h
  constructor
  · rw [keys_indexInsert_eq]
    by_cases hm : content ∈ keys idx
    · simpa [hm]
    · simp [hm, List.nodup_append, hkeys]
  · exact locsWF_indexInsert hlocs content slide_id

/-! ### Characterization of the tree walker -/

theorem processTextElements_cons (idx : Index) (slide_id : Str) (te : TextElement)
    (rest : List TextElement) :
    processTextElements idx slide_id (te :: rest) =
      processTextElements
        (match runFragment te with
         | some content => indexInsert idx content slide_id
         | none => idx) slide_id rest := by
  cases hte : te.textRun with
  | none => simp [processTextElements, hte, runFragment]
  | some tr =>
    by_cases hcond : pyStrip tr.content ≠ [] ∧ hasAlpha (pyStrip tr.content) = true
    · simp [processTextElements, hte, runFragment, hcond]
    · simp [processTextElements, hte, runFragment, hcond]

theorem runFragments_cons_none {te : TextElement} (hf : runFragment te = none)
    (rest : List TextElement) : runFragments (te :: rest) = runFragments rest := by
  simp [runFragments, List.filterMap_cons, hf]

theorem runFragments_cons_some {te : TextElement} {c : Str} (hf : runFragment te = some c)
    (rest : List TextElement) : runFragments (te :: rest) = c :: runFragments rest := by
  simp [runFragments, List.filterMap_cons, hf]

theorem getLocs_processTextElements (tes : List TextElement) (idx : Index) (slide_id k : Str) :
    getLocs (processTextElements idx slide_id tes) k =
      if k ∈ runFragments tes then insertLoc (getLocs idx k) slide_id else getLocs idx k := by
  induction tes generalizing idx with
  | nil => simp [processTextElements, runFragments]
  | cons te rest ih =>
    rw [processTextElements_cons]
    cases hf : runFragment te with
    | none => rw [runFragments_cons_none hf, ih]
    | some c =>
      rw [runFragments_cons_some hf, ih, getLocs_indexInsert]
      by_cases h1 : k = c <;> by_cases h2 : k ∈ runFragments rest <;>
        simp [h1, h2, insertLoc_idem]

theorem mem_keys_processTextElements (tes : List TextElement) (idx : Index) (slide_id k : Str) :
    k ∈ keys (processTextElements idx slide_id tes) ↔ k ∈ keys idx ∨ k ∈ runFragments tes := by
  induction tes generalizing idx with
  | nil => simp [processTextElements, runFragments]
  | cons te rest ih =>
    rw [processTextElements_cons]
    cases hf : runFragment te with
    | none => rw [runFragments_cons_none hf, ih]
    | some c =>
      rw [runFragments_cons_some hf, ih]
      rw [mem_keys_indexInsert]
      simp only [List.mem_cons]
      tauto

theorem getLocs_processElement (e : PageElement) (idx : Index) (slide_id k : Str) :
    getLocs (processElement idx slide_id e) k =
      if k ∈ elementFragments e then insertLoc (getLocs idx k) slide_id else getLocs idx k := by
  cases e with
  | shape s =>
    by_cases hs : s.hasTextKey = true
    · simp [processElement, elementFragments, hs, getLocs_processTextElements]
    · simp [processElement, elementFragments, hs]
  | group children => simp [processElement, elementFragments]
  | table rows => simp [processElement, elementFragments]

theorem mem_keys_processElement (e : PageElement) (idx : Index) (slide_id k : Str) :
    k ∈ keys (processElement idx slide_id e) ↔ k ∈ keys idx ∨ k ∈ elementFragments e := by
  cases e with
  | shape s =>
    by_cases hs : s.hasTextKey = true
    · simp [processElement, elementFragments, hs, mem_keys_processTextElements]
    · simp [processElement, elementFragments, hs]
  | group children => simp [processElement, elementFragments]
  | table rows => simp [processElement, elementFragments]

theorem getLocs_processElements (els : List PageElement) (idx : Index) (slide_id k : Str) :
    getLocs (processElements idx slide_id els) k =
      if k ∈ els.flatMap elementFragments then insertLoc (getLocs idx k) slide_id
      else getLocs idx k := by
  induction els generalizing idx with
  | nil => simp [processElements]
  | cons e rest ih =>
    simp only [processElements, List.flatMap_cons, List.mem_append]
    rw [ih, getLocs_processElement]
    by_cases h1 : k ∈ elementFragments e <;> by_cases h2 : k ∈ rest.flatMap elementFragments <;>
      simp [h1, h2, insertLoc_idem]

theorem mem_keys_processElements (els : List PageElement) (idx : Index) (slide_id k : Str) :
    k ∈ keys (processElements idx slide_id els) ↔
      k ∈ keys idx ∨ k ∈ els.flatMap elementFragments := by
  induction els generalizing idx with
  | nil => simp [processElements]
  | cons e rest ih =>
    simp only [processElements, List.flatMap_cons, List.mem_append]
    rw [ih, mem_keys_processElement]
    tauto

theorem mem_getLocs_extractAux (slides : List Slide) (idx : Index) (k sid : Str) :
    sid ∈ getLocs (extractAux idx slides) k ↔
      sid ∈ getLocs idx k ∨ ∃ s ∈ slides, s.objectId = sid ∧ k ∈ slideFragments s := by
  induction slides generalizing idx with
  | nil => simp [extractAux]
  | cons s rest ih =>
    rw [extractAux, ih, getLocs_processElements]
    by_cases h : k ∈ s.pageElements.flatMap elementFragments
    · rw [if_pos h]
      simp only [List.mem_cons, mem_insertLoc]
      constructor
      · rintro ((hm | rfl) | ⟨s1, hs1, h1, h2⟩)
        · exact Or.inl hm
        · exact Or.inr ⟨s, Or.inl rfl, rfl, h⟩
        · exact Or.inr ⟨s1, Or.inr hs1, h1, h2⟩
      · rintro (hm | ⟨s1, (rfl | hs1), h1, h2⟩)
        · exact Or.inl (Or.inl hm)
        · exact Or.inl (Or.inr h1.symm)
        · exact Or.inr ⟨s1, hs1, h1, h2⟩
    · rw [if_neg h]
      simp only [List.mem_cons]
      constructor
      · rintro (hm | ⟨s1, hs1, h1, h2⟩)
        · exact Or.inl hm
        · exact Or.inr ⟨s1, Or.inr hs1, h1, h2⟩
      · rintro (hm | ⟨s1, (rfl | hs1), h1, h2⟩)
        · exact Or.inl hm
        · exact absurd h2 h
        · exact Or.inr ⟨s1, hs1, h1, h2⟩

theorem mem_keys_extractAux (slides : List Slide) (idx : Index) (k : Str) :
    k ∈ keys (extractAux idx slides) ↔
      k ∈ keys idx ∨ ∃ s ∈ slides, k ∈ slideFragments s := by
  induction slides generalizing idx with
  | nil => simp [extractAux]
  | cons s rest ih =>
    rw [extractAux, ih, mem_keys_processElements]
    simp only [List.mem_cons, slideFragments]
    constructor
    · rintro ((hm | hf) | ⟨s1, hs1, h2⟩)
      · exact Or.inl hm
      · exact Or.inr ⟨s, Or.inl rfl, hf⟩
      · exact Or.inr ⟨s1, Or.inr hs1, h2⟩
    · rintro (hm | ⟨s1, (rfl | hs1), h2⟩)
      · exact Or.inl (Or.inl hm)
      · exact Or.inl (Or.inr h2)
      · exact Or.inr ⟨s1, hs1, h2⟩

theorem indexWF_processTextElements (tes : List TextElement) {idx : Index} (h : IndexWF idx)
    (slide_id : Str) : IndexWF (processTextElements idx slide_id tes) := by
  induction tes generalizing idx with
  | nil => exact h
  | cons te rest ih =>
    rw [processTextElements_cons]
    cases hf : runFragment te with
    | none => exact ih h
    | some c => exact ih (indexWF_indexInsert h _ _)

theorem indexWF_processElement (e : PageElement) {idx : Index} (h : IndexWF idx)
    (slide_id : Str) : IndexWF (processElement idx slide_id e) := by
  cases e with
  | shape s =>
    by_cases hs : s.hasTextKey = true
    · simp only [processElement, if_pos hs]
      exact indexWF_processTextElements _ h _
    · simp only [processElement, if_neg hs]
      exact h
  | group children => exact h
  | table rows => exact h

theorem indexWF_processElements (els : List PageElement) {idx : Index} (h : IndexWF idx)
    (slide_id : Str) : IndexWF (processElements idx slide_id els) := by
  induction els generalizing idx with
  | nil => exact h
  | cons e rest ih => exact ih (indexWF_processElement e h slide_id)

theorem indexWF_extractAux (slides : List Slide) {idx : Index} (h : IndexWF idx) :
    IndexWF (extractAux idx slides) := by
  induction slides generalizing idx with
  | nil => exact h
  | cons s rest ih => exact ih (indexWF_processElements _ h _)

theorem indexWF_extract (slides : List Slide) : IndexWF (extract_presentation_texts slides) :=
  indexWF_extractAux slides indexWF_nil

theorem mem_getLocs_extract (slides : List Slide) (k sid : Str) :
    sid ∈ getLocs (extract_presentation_texts slides) k ↔
      ∃ s ∈ slides, s.objectId = sid ∧ k ∈ slideFragments s := by
  rw [extract_presentation_texts, mem_getLocs_extractAux]
  simp [getLocs]

theorem mem_keys_extract (slides : List Slide) (k : Str) :
    k ∈ keys (extract_presentation_texts slides) ↔ ∃ s ∈ slides, k ∈ slideFragments s := by
  rw [extract_presentation_texts, mem_keys_extractAux]
  simp [keys]

/-! ### Properties of stripping -/

theorem dropWhile_dropWhile (p : Char → Bool) (l : Str) :
    List.dropWhile p (List.dropWhile p l) = List.dropWhile p l := by
  induction l with
  | nil => simp
  | cons c t ih =>
    by_cases h : p c
    · simp [List.dropWhile_cons, h, ih]
    · simp [List.dropWhile_cons, h]

theorem dropWhile_head_false (p : Char → Bool) (l : Str) :
    ∀ c t, List.dropWhile p l = c :: t → p c = false := by
  induction l with
  | nil => intro c t h; cases h
  | cons a l ih =>
    intro c t h
    by_cases ha : p a = true
    · rw [List.dropWhile_cons, if_pos ha] at h
      exact ih c t h
    · rw [List.dropWhile_cons, if_neg ha] at h
      injection h with h1 _
      subst h1
      exact Bool.eq_false_iff.mpr ha

theorem rstrip_initial_segment (u : Str) : ∃ r, u = rstrip u ++ r := by
  obtain ⟨t, ht⟩ := List.dropWhile_suffix (l := u.reverse) pyIsSpace
  refine ⟨t.reverse, ?_⟩
  rw [rstrip]
  calc u = u.reverse.reverse := by rw [List.reverse_reverse]
  _ = (t ++ List.dropWhile pyIsSpace u.reverse).reverse := by rw [ht]
  _ = (List.dropWhile pyIsSpace u.reverse).reverse ++ t.reverse := by rw [List.reverse_append]

theorem pyStrip_idem (s : Str) : pyStrip (pyStrip s) = pyStrip s := by
  have h1 : lstrip (pyStrip s) = pyStrip s := by
    cases hc : pyStrip s with
    | nil => simp [lstrip]
    | cons c t =>
      obtain ⟨r, hr⟩ := rstrip_initial_segment (lstrip s)
      rw [pyStrip] at hc
      rw [hc] at hr
      have hd : List.dropWhile pyIsSpace s = c :: (t ++ r) := by simpa [lstrip] using hr
      have hpc : pyIsSpace c = false := dropWhile_head_false pyIsSpace s c (t ++ r) hd
      rw [lstrip, List.dropWhile_cons, hpc]
      simp
  have h2 : rstrip (rstrip (lstrip s)) = rstrip (lstrip s) := by
    rw [rstrip, rstrip, List.reverse_reverse, dropWhile_dropWhile]
  rw [pyStrip, h1, pyStrip]
  exact h2

theorem runFragment_some_spec {te : TextElement} {c : Str} (h : runFragment te = some c) :
    c ≠ [] ∧ hasAlpha c = true ∧ ∃ tr, te.textRun = some tr ∧ c = pyStrip tr.content := by
  cases hte : te.textRun with
  | none => rw [runFragment, hte] at h; cases h
  | some tr =>
    rw [runFragment, hte] at h
    simp only [Option.some_bind] at h
    by_cases hcond : pyStrip tr.content ≠ [] ∧ hasAlpha (pyStrip tr.content) = true
    · rw [if_pos hcond] at h
      injection h with h
      subst h
      exact ⟨hcond.1, hcond.2, tr, rfl, rfl⟩
    · rw [if_neg hcond] at h
      cases h

/-! ### Helpers for location counting -/

theorem getLocs_mem_or_nil (idx : Index) (k : Str) :
    getLocs idx k = [] ∨ (k, getLocs idx k) ∈ idx := by
  induction idx with
  | nil => exact Or.inl rfl
  | cons e rest ih =>
    obtain ⟨k0, locs⟩ := e
    by_cases h : k0 = k
    · subst h
      rw [getLocs, if_pos rfl]
      exact Or.inr (List.mem_cons_self _ _)
    · rw [getLocs, if_neg h]
      rcases ih with h1 | h1
      · exact Or.inl h1
      · exact Or.inr (List.mem_cons_of_mem _ h1)

theorem getLocs_nodup {idx : Index} (h : IndexWF idx) (k : Str) : (getLocs idx k).Nodup := by
  rcases getLocs_mem_or_nil idx k with h1 | h1
  · rw [h1]; exact List.nodup_nil
  · exact (h.2 _ h1).1

theorem length_eq_of_nodup_of_mem_iff {L D : List Str} (hL : L.Nodup) (hD : D.Nodup)
    (h : ∀ x, x ∈ L ↔ x ∈ D) : L.length = D.length := by
  have hf : L.toFinset = D.toFinset := by
    ext x
    simp only [List.mem_toFinset]
    exact h x
  calc L.length = L.toFinset.card := (List.toFinset_card_of_nodup hL).symm
  _ = D.toFinset.card := by rw [hf]
  _ = D.length := List.toFinset_card_of_nodup hD

theorem processElements_filter (els : List PageElement) (idx : Index) (slide_id : Str) :
    processElements idx slide_id (els.filter isShapeElement) =
      processElements idx slide_id els := by
  induction els generalizing idx with
  | nil => rfl
  | cons e rest ih =>
    cases e with
    | shape sh => simp [List.filter_cons, isShapeElement, processElements, ih]
    | group children => simp [List.filter_cons, isShapeElement, processElements, processElement, ih]
    | table rows => simp [List.filter_cons, isShapeElement, processElements, processElement, ih]

theorem extractAux_restrictToShapes (slides : List Slide) :
    ∀ idx, extractAux idx (restrictToShapes slides) = extractAux idx slides := by
  induction slides with
  | nil => intro idx; rfl
  | cons s rest ih =>
    intro idx
    rw [restrictToShapes, List.map_cons]
    rw [extractAux, extractAux]
    rw [show (restrictToShapes rest = List.map (fun s => Slide.mk s.objectId
      (s.pageElements.filter isShapeElement)) rest) from rfl] at ih
    rw [processElements_filter]
    exact ih _

/-! ### Claim theorems -/

/-- C2 counterexample: the walker does not treat text runs inside Groups and
Tables like Shape text runs.  In `c2GroupDoc` the texts "Hello" and "World"
sit inside a Group and a Table cell and the TextIndex comes out empty, while
the same texts in top-level Shapes (`c2ShapeDoc`) are indexed. -/
theorem C2_counterexample :
    extract_presentation_texts c2GroupDoc = [] ∧
    extract_presentation_texts c2ShapeDoc =
      [("Hello".toList, ["s1".toList]), ("World".toList, ["s1".toList])] ∧
    "Hello".toList ∈ keys (extract_presentation_texts c2ShapeDoc) ∧
    "Hello".toList ∉ keys (extract_presentation_texts c2GroupDoc) := by
  refine ⟨by decide, by decide, by decide, by decide⟩

/-- C2 (amended): the tree walker never recurses into Group or Table elements;
text runs inside them contribute no fragments, so deleting every non-Shape
page element from every slide leaves the TextIndex unchanged. -/
theorem C2_walker_only_visits_shapes (slides : List Slide) :
    extract_presentation_texts (restrictToShapes slides) =
      extract_presentation_texts slides := by
  rw [extract_presentation_texts, extract_presentation_texts]
  exact extractAux_restrictToShapes slides []

/-- C6: every key of the TextIndex built by `extract_presentation_texts` is
non-empty, is trimmed (stripping is the identity on it), and contains at least
one ASCII letter; hence a run whose trimmed content is empty or consists only
of digits, punctuation, or whitespace never appears as a key. -/
theorem C6_textindex_keys_are_filtered (slides : List Slide) (k : Str)
    (hk : k ∈ keys (extract_presentation_texts slides)) :
    k ≠ [] ∧ hasAlpha k = true ∧ pyStrip k = k := by
  rw [mem_keys_extract] at hk
  obtain ⟨s, _, hf⟩ := hk
  rw [slideFragments, List.mem_flatMap] at hf
  obtain ⟨e, _, hef⟩ := hf
  have hex : ∃ te, runFragment te = some k := by
    cases e with
    | shape sh =>
      simp only [elementFragments] at hef
      by_cases hs : sh.hasTextKey = true
      · rw [if_pos hs, runFragments] at hef
        obtain ⟨te, _, h⟩ := List.mem_filterMap.mp hef
        exact ⟨te, h⟩
      · rw [if_neg hs] at hef
        exact absurd hef (List.not_mem_nil k)
    | group children =>
      simp only [elementFragments] at hef
      exact absurd hef (List.not_mem_nil k)
    | table rows =>
      simp only [elementFragments] at hef
      exact absurd hef (List.not_mem_nil k)
  obtain ⟨te, hte⟩ := hex
  obtain ⟨hne, halpha, tr, _, hk2⟩ := runFragment_some_spec hte
  refine ⟨hne, halpha, ?_⟩
  rw [hk2, pyStrip_idem]

/-- C6 witness: in `c6Slides` the key "Hello" indeed satisfies the three
conclusions. -/
theorem C6_witness :
    "Hello".toList ≠ ([] : Str) ∧ hasAlpha "Hello".toList = true ∧
      pyStrip "Hello".toList = "Hello".toList :=
  C6_textindex_keys_are_filtered c6Slides "Hello".toList (by decide)

/-- C7: if a fragment occurs in exactly N distinct slides then its location
set in the TextIndex has exactly N elements, regardless of how many times it
repeats within a single slide; and repeated occurrences never create duplicate
keys or duplicate locations. -/
theorem C7_location_sets_count_distinct_slides (slides : List Slide) (frag : Str) (N : Nat)
    (hN : ((slides.filter (occursOnSlide frag)).map Slide.objectId).dedup.length = N) :
    (getLocs (extract_presentation_texts slides) frag).length = N ∧
    (keys (extract_presentation_texts slides)).Nodup ∧
    ∀ e ∈ extract_presentation_texts slides, e.2.Nodup := by
  have hwf := indexWF_extract slides
  refine ⟨?_, hwf.1, fun e he => (hwf.2 e he).1⟩
  rw [← hN]
  apply length_eq_of_nodup_of_mem_iff (getLocs_nodup hwf frag) (List.nodup_dedup _)
  intro sid
  rw [mem_getLocs_extract, List.mem_dedup, List.mem_map]
  constructor
  · rintro ⟨s, hs, hid, hf⟩
    exact ⟨s, List.mem_filter.mpr ⟨hs, by simp [occursOnSlide, hf]⟩, hid⟩
  · rintro ⟨s, hs, hid⟩
    have hm := List.mem_filter.mp hs
    exact ⟨s, hm.1, hid, by simpa [occursOnSlide] using hm.2⟩

/-- C7 witness: in `c7Slides` the fragment "Hello" occurs on two distinct
slides (twice on the first), and its location set has exactly two elements. -/
theorem C7_witness :
    (getLocs (extract_presentation_texts c7Slides) "Hello".toList).length = 2 ∧
    (keys (extract_presentation_texts c7Slides)).Nodup ∧
    ∀ e ∈ extract_presentation_texts c7Slides, e.2.Nodup :=
  C7_location_sets_count_distinct_slides c7Slides "Hello".toList 2 (by decide)

/-! ### Lemmas about the translation dispatcher -/

theorem dictGet_dictInsert (d : List (Str × Str)) (k v q : Str) :
    dictGet (dictInsert d k v) q = if q = k then some v else dictGet d q := by
  induction d with
  | nil =>
    by_cases h : q = k
    · subst h; simp [dictInsert, dictGet]
    · simp [dictInsert, dictGet, h, Ne.symm h]
  | cons e rest ih =>
    obtain ⟨k0, v0⟩ := e
    by_cases h0 : k0 = k
    · subst h0
      by_cases hq : q = k0
      · subst hq; simp [dictInsert, dictGet]
      · simp [dictInsert, dictGet, hq, Ne.symm hq]
    · by_cases hq : k0 = q
      · subst hq
        have hne : ¬k0 = k := h0
        simp [dictInsert, dictGet, h0, hne]
      · simp [dictInsert, dictGet, h0, hq, ih]

theorem usages_translate_texts_aux (f : Str → Option (Str × Option UsageMetadata))
    (ts : List Str) (tr : List (Str × Str)) (us : List UsageMetadata) :
    (translate_texts_aux f tr us ts).2 = us ++ ts.filterMap (fun t => (f t).bind Prod.snd) := by
  induction ts generalizing tr us with
  | nil => simp [translate_texts_aux]
  | cons t rest ih =>
    cases hf : f t with
    | none => simp [translate_texts_aux, hf, List.filterMap_cons, ih]
    | some r =>
      obtain ⟨rtext, u⟩ := r
      cases u with
      | none => simp [translate_texts_aux, hf, List.filterMap_cons, ih]
      | some usage => simp [translate_texts_aux, hf, List.filterMap_cons, ih]

theorem dictGet_translate_texts_aux (f : Str → Option (Str × Option UsageMetadata))
    (ts : List Str) (tr : List (Str × Str)) (us : List UsageMetadata) (k : Str) :
    dictGet (translate_texts_aux f tr us ts).1 k =
      if k ∈ ts ∧ (translationOutcome f k).isSome then translationOutcome f k
      else dictGet tr k := by
  induction ts generalizing tr us with
  | nil => simp [translate_texts_aux]
  | cons t rest ih =>
    by_cases hk : k = t
    · subst hk
      cases hf : f k with
      | none =>
        have hout : translationOutcome f k = none := by simp [translationOutcome, hf]
        simp only [translate_texts_aux, hf]
        rw [ih]
        simp [hout]
      | some r =>
        obtain ⟨rtext, u⟩ := r
        by_cases hs : pyStrip rtext ≠ []
        · have hout : translationOutcome f k = some (pyStrip rtext) := by
            simp [translationOutcome, hf, hs]
          simp only [translate_texts_aux, hf, if_pos hs]
          rw [ih]
          by_cases hrest : k ∈ rest
          · simp [hout, hrest]
          · simp [hout, hrest, dictGet_dictInsert]
        · have hout : translationOutcome f k = none := by
            simp only [translationOutcome, hf, Option.some_bind]
            simp [hs]
          simp only [translate_texts_aux, hf, if_neg hs]
          rw [ih]
          simp [hout]
    · cases hf : f t with
      | none =>
        simp only [translate_texts_aux, hf]
        rw [ih]
        simp [List.mem_cons, hk]
      | some r =>
        obtain ⟨rtext, u⟩ := r
        by_cases hs : pyStrip rtext ≠ []
        · simp only [translate_texts_aux, hf, if_pos hs]
          rw [ih]
          by_cases hcond : k ∈ rest ∧ (translationOutcome f k).isSome
          · simp [hcond, List.mem_cons, hk]
          · simp only [if_neg hcond, dictGet_dictInsert, if_neg hk]
            have : ¬(k ∈ t :: rest ∧ (translationOutcome f k).isSome) := by
              intro ⟨h1, h2⟩
              rcases List.mem_cons.mp h1 with rfl | h1
              · exact hk rfl
              · exact hcond ⟨h1, h2⟩
            rw [if_neg this]
        · simp only [translate_texts_aux, hf, if_neg hs]
          rw [ih]
          simp [List.mem_cons, hk]

/-- C4: a fragment whose translation call fails is omitted from the
translations dictionary and contributes nothing to the usage list, while every
other fragment with a successful, nonempty translation is still recorded —
the run does not abort on a per-fragment failure. -/
theorem C4_translation_failure_is_isolated
    (f : Str → Option (Str × Option UsageMetadata)) (texts : List Str) (t : Str)
    (_ht : t ∈ texts) (hfail : f t = none) :
    dictGet (translate_texts f texts).1 t = none ∧
    (translate_texts f texts).2 = texts.filterMap (fun x => (f x).bind Prod.snd) ∧
    (∀ t2 ∈ texts, ∀ rtext u, f t2 = some (rtext, u) → pyStrip rtext ≠ [] →
      dictGet (translate_texts f texts).1 t2 = some (pyStrip rtext)) := by
  refine ⟨?_, ?_, ?_⟩
  · rw [translate_texts, dictGet_translate_texts_aux]
    have hout : translationOutcome f t = none := by simp [translationOutcome, hfail]
    simp [hout, dictGet]
  · rw [translate_texts, usages_translate_texts_aux]
    simp
  · intro t2 ht2 rtext u hsucc hne
    rw [translate_texts, dictGet_translate_texts_aux]
    have hout : translationOutcome f t2 = some (pyStrip rtext) := by
      simp [translationOutcome, hsucc, hne]
    simp [hout, ht2]

/-- C4 witness: with `c4Oracle`, the failing text "bad" is omitted while
"good" is still translated and its usage recorded. -/
theorem C4_witness :
    dictGet (translate_texts c4Oracle ["good".toList, "bad".toList]).1 "bad".toList = none ∧
    (translate_texts c4Oracle ["good".toList, "bad".toList]).2 =
      (["good".toList, "bad".toList].filterMap fun x => (c4Oracle x).bind Prod.snd) ∧
    (∀ t2 ∈ ["good".toList, "bad".toList], ∀ rtext u, c4Oracle t2 = some (rtext, u) →
      pyStrip rtext ≠ [] →
      dictGet (translate_texts c4Oracle ["good".toList, "bad".toList]).1 t2 =
        some (pyStrip rtext)) :=
  C4_translation_failure_is_isolated c4Oracle ["good".toList, "bad".toList] "bad".toList
    (by decide) (by decide)

/-! ### Lemmas about the replacement planner -/

theorem assoc_nodup_eq {l : List (Str × Str)} (h : (l.map Prod.fst).Nodup)
    {k v1 v2 : Str} (h1 : (k, v1) ∈ l) (h2 : (k, v2) ∈ l) : v1 = v2 := by
  induction l with
  | nil => cases h1
  | cons e rest ih =>
    obtain ⟨k0, v0⟩ := e
    rw [List.map_cons] at h
    have hns := List.nodup_cons.mp h
    rcases List.mem_cons.mp h1 with he1 | hm1 <;> rcases List.mem_cons.mp h2 with he2 | hm2
    · injection he1 with hk1 hv1
      injection he2 with hk2 hv2
      rw [hv1, hv2]
    · injection he1 with hk1 hv1
      exact absurd (List.mem_map.mpr ⟨(k, v2), hm2, hk1⟩) hns.1
    · injection he2 with hk2 hv2
      exact absurd (List.mem_map.mpr ⟨(k, v1), hm1, hk2⟩) hns.1
    · exact ih hns.2 hm1 hm2

theorem mkReplaceRequest_some_iff {idx : Index} {item : Str × Str}
    {r : ReplaceAllTextRequest} :
    mkReplaceRequest idx item = some r ↔
      pyStrip item.2 ≠ [] ∧ getLocs idx item.1 ≠ [] ∧
      r = { replaceText := item.2, pageObjectIds := getLocs idx item.1,
            containsText := item.1, matchCase := true } := by
  rw [mkReplaceRequest]
  by_cases h1 : pyStrip item.2 ≠ [] <;> by_cases h2 : getLocs idx item.1 ≠ [] <;>
    simp [h1, h2, eq_comm]

/-- C8: the planner emits a replaceAllText request for a translated fragment
if and only if its translated text is non-empty after trimming and the
fragment has at least one recorded location in the TextIndex. -/
theorem C8_request_iff_nonempty_and_located (translations : List (Str × Str)) (idx : Index)
    (text translation : Str)
    (hkeys : (translations.map Prod.fst).Nodup)
    (hmem : (text, translation) ∈ translations) :
    (∃ r ∈ batch_update_requests translations idx, r.containsText = text) ↔
      (pyStrip translation ≠ [] ∧ getLocs idx text ≠ []) := by
  have hperm := List.perm_insertionSort lenDescRel translations
  constructor
  · rintro ⟨r, hr, hct⟩
    rw [batch_update_requests] at hr
    obtain ⟨item, hitem, hreq⟩ := List.mem_filterMap.mp hr
    obtain ⟨hne, hloc, hrec⟩ := mkReplaceRequest_some_iff.mp hreq
    have hct2 : item.1 = text := by rw [hrec] at hct; exact hct
    have hitem2 : (text, item.2) ∈ translations := by
      rw [← hct2]
      exact hperm.mem_iff.mp hitem
    have hval : item.2 = translation := assoc_nodup_eq hkeys hitem2 hmem
    rw [hct2] at hloc
    rw [hval] at hne
    exact ⟨hne, hloc⟩
  · rintro ⟨hne, hloc⟩
    refine ⟨{ replaceText := translation, pageObjectIds := getLocs idx text,
              containsText := text, matchCase := true }, ?_, rfl⟩
    rw [batch_update_requests]
    apply List.mem_filterMap.mpr
    refine ⟨(text, translation), hperm.mem_iff.mpr hmem, ?_⟩
    exact mkReplaceRequest_some_iff.mpr ⟨hne, hloc, rfl⟩

/-- C8 witness: with the concrete translations and index of the C3 scenario,
the fragment "World" (nonempty translation, recorded location) gets a
request. -/
theorem C8_witness :
    ∃ r ∈ batch_update_requests c3Translations c3Index, r.containsText = "World".toList :=
  (C8_request_iff_nonempty_and_located c3Translations c3Index "World".toList "Monde".toList
    (by decide) (by decide)).mpr (by decide)

theorem length_lt_of_proper_sub {a b : Str} (h : isSubstringOf a b) (hne : a ≠ b) :
    a.length < b.length := by
  obtain ⟨pre, post, rfl⟩ := h
  rcases Nat.lt_or_ge a.length (pre ++ a ++ post).length with hlt | hge
  · exact hlt
  · exfalso
    simp only [List.length_append] at hge
    have hpre : pre.length = 0 := by omega
    have hpost : post.length = 0 := by omega
    rw [List.length_eq_zero] at hpre hpost
    subst hpre
    subst hpost
    simp at hne

theorem batch_update_requests_sorted (translations : List (Str × Str)) (idx : Index) :
    (batch_update_requests translations idx).Pairwise reqLenDesc := by
  rw [batch_update_requests]
  rw [List.pairwise_filterMap]
  apply List.Pairwise.imp ?_ (List.sorted_insertionSort lenDescRel translations)
  intro a b hab r1 h1 r2 h2
  obtain ⟨_, _, hr1⟩ := mkReplaceRequest_some_iff.mp h1
  obtain ⟨_, _, hr2⟩ := mkReplaceRequest_some_iff.mp h2
  rw [reqLenDesc, hr1, hr2]
  exact hab

theorem chunks_flatten (l : List ReplaceAllTextRequest) : (chunks l).flatten = l := by
  rw [chunks]
  by_cases h : l = []
  · rw [dif_pos h, h]
    rfl
  · rw [dif_neg h, List.flatten_cons, chunks_flatten (l.drop batch_size),
      List.take_append_drop]
termination_by l.length
decreasing_by
  simp only [List.length_drop]
  have : 0 < l.length := List.length_pos.mpr h
  simp only [batch_size]
  omega

theorem chunks_batch_mem (l : List ReplaceAllTextRequest) (i : Nat) (h : i < l.length) :
    ∃ b, (chunks l)[i / batch_size]? = some b ∧ l.get ⟨i, h⟩ ∈ b := by
  rw [chunks]
  have hl : l ≠ [] := by
    intro hc
    subst hc
    simp at h
  rw [dif_neg hl]
  by_cases hi : i < batch_size
  · refine ⟨l.take batch_size, ?_, ?_⟩
    · rw [Nat.div_eq_of_lt hi]
      simp
    · have hlen : i < (l.take batch_size).length := by
        rw [List.length_take]
        omega
      have hget : (l.take batch_size).get ⟨i, hlen⟩ = l.get ⟨i, h⟩ := by
        simp [List.getElem_take]
      rw [← hget]
      exact List.get_mem _ _ hlen
  · have h2 : i - batch_size < (l.drop batch_size).length := by
      rw [List.length_drop]
      omega
    obtain ⟨b, hb1, hb2⟩ := chunks_batch_mem (l.drop batch_size) (i - batch_size) h2
    refine ⟨b, ?_, ?_⟩
    · have hbs : 0 < batch_size := by simp [batch_size]
      have h3 : (i - batch_size) + batch_size = i := by omega
      have hdiv : i / batch_size = (i - batch_size) / batch_size + 1 := by
        calc i / batch_size = ((i - batch_size) + batch_size) / batch_size := by rw [h3]
        _ = (i - batch_size) / batch_size + 1 := Nat.add_div_right _ hbs
      rw [hdiv]
      simpa using hb1
    · have hidx : batch_size + (i - batch_size) = i := by omega
      have hget : (l.drop batch_size).get ⟨i - batch_size, h2⟩ = l.get ⟨i, h⟩ := by
        rw [List.get_eq_getElem, List.get_eq_getElem, List.getElem_drop]
        simp only [hidx]
      rw [← hget]
      exact hb2
termination_by l.length
decreasing_by
  simp only [List.length_drop]
  have : 0 < l.length := List.length_pos.mpr hl
  simp only [batch_size]
  omega

/-- C3: sorting by descending length of the original fragment before batching
guarantees that when fragment A is a proper substring of fragment B, B's
request lands in a batch with index at most that of A's request; and the sort
order is preserved within and across the fixed-size batches (the batches
flatten back to the sorted request list). -/
theorem C3_substring_implies_earlier_batch (translations : List (Str × Str)) (idx : Index)
    (A B : Str) (hsub : isSubstringOf A B) (hne : A ≠ B)
    (i j : Nat)
    (hi : i < (batch_update_requests translations idx).length)
    (hj : j < (batch_update_requests translations idx).length)
    (hA : ((batch_update_requests translations idx).get ⟨i, hi⟩).containsText = A)
    (hB : ((batch_update_requests translations idx).get ⟨j, hj⟩).containsText = B) :
    j / batch_size ≤ i / batch_size ∧
    (∃ bB, (batch_update_batches translations idx)[j / batch_size]? = some bB ∧
      (batch_update_requests translations idx).get ⟨j, hj⟩ ∈ bB) ∧
    (∃ bA, (batch_update_batches translations idx)[i / batch_size]? = some bA ∧
      (batch_update_requests translations idx).get ⟨i, hi⟩ ∈ bA) ∧
    (batch_update_batches translations idx).flatten = batch_update_requests translations idx ∧
    (batch_update_requests translations idx).Pairwise reqLenDesc := by
  have hlen : A.length < B.length := length_lt_of_proper_sub hsub hne
  have hsorted := batch_update_requests_sorted translations idx
  have hji : j < i := by
    rcases Nat.lt_trichotomy i j with hc | hc | hc
    · exfalso
      have hp := (List.pairwise_iff_get.mp hsorted) ⟨i, hi⟩ ⟨j, hj⟩ hc
      rw [reqLenDesc, hA, hB] at hp
      omega
    · exfalso
      subst hc
      exact hne (hA.symm.trans hB)
    · exact hc
  rw [batch_update_batches]
  exact ⟨Nat.div_le_div_right (Nat.le_of_lt hji),
    chunks_batch_mem _ j hj, chunks_batch_mem _ i hi,
    chunks_flatten _, hsorted⟩

/-- C3 witness: with the concrete translations of `c3Translations`, the
fragment "World" is a proper substring of "Hello World"; the latter's request
comes at index 0, the former's at index 1, and batch index 0 ≤ batch index 0
holds as the theorem concludes. -/
theorem C3_witness :
    isSubstringOf "World".toList "Hello World".toList ∧
    0 / batch_size ≤ 1 / batch_size ∧
    (batch_update_batches c3Translations c3Index).flatten =
      batch_update_requests c3Translations c3Index := by
  have happ := C3_substring_implies_earlier_batch c3Translations c3Index
    "World".toList "Hello World".toList ⟨"Hello ".toList, [], by decide⟩ (by decide)
    1 0 (by decide) (by decide) (by decide) (by decide)
  exact ⟨⟨"Hello ".toList, [], by decide⟩, happ.1, happ.2.2.2.1⟩

/-! ### Lemmas about the usage report and the active tool -/

theorem priceTableFor_not_mem (ps : List (Str × (ℚ × ℚ))) (m : Str)
    (h : m ∉ ps.map Prod.fst) : priceTableFor ps m = (0, 0) := by
  induction ps with
  | nil => rfl
  | cons e rest ih =>
    obtain ⟨k, p⟩ := e
    rw [List.map_cons, List.mem_cons] at h
    push_neg at h
    rw [priceTableFor, if_neg ?_]
    · exact ih h.2
    · intro hc
      exact h.1 hc.symm

theorem foldl_add_eq_sum_map (f : UsageMetadata → Nat) (l : List UsageMetadata) (n : Nat) :
    l.foldl (fun acc u => acc + f u) n = n + (l.map f).sum := by
  induction l generalizing n with
  | nil => simp
  | cons u rest ih =>
    rw [List.foldl_cons, ih, List.map_cons, List.sum_cons]
    omega

/-- C10: for a model name absent from the built-in price table, the usage
report still sums the input and output token counts over all usages, but its
total cost is exactly zero, because the lookup falls back to zero per-token
prices. -/
theorem C10_unknown_model_costs_zero (usages : List UsageMetadata) (model_name : Str)
    (h : model_name ∉ prices.map Prod.fst) :
    (report_usage usages model_name).total_cost_usd = 0 ∧
    (report_usage usages model_name).total_input_tokens =
      (usages.map UsageMetadata.prompt_token_count).sum ∧
    (report_usage usages model_name).total_output_tokens =
      (usages.map UsageMetadata.candidates_token_count).sum := by
  have hp : priceTableFor prices model_name = (0, 0) := priceTableFor_not_mem prices model_name h
  refine ⟨?_, ?_, ?_⟩
  · simp [report_usage, hp]
  · simp [report_usage, foldl_add_eq_sum_map]
  · simp [report_usage, foldl_add_eq_sum_map]

/-- C10 witness: the model "gpt-4" is not in the price table; with two usages
the report sums 3 + 7 input and 5 + 2 output tokens and costs zero. -/
theorem C10_witness :
    "gpt-4".toList ∉ prices.map Prod.fst ∧
    (report_usage [⟨3, 5⟩, ⟨7, 2⟩] "gpt-4".toList).total_cost_usd = 0 ∧
    (report_usage [⟨3, 5⟩, ⟨7, 2⟩] "gpt-4".toList).total_input_tokens =
      ([⟨3, 5⟩, ⟨7, 2⟩].map UsageMetadata.prompt_token_count).sum ∧
    (report_usage [⟨3, 5⟩, ⟨7, 2⟩] "gpt-4".toList).total_output_tokens =
      ([⟨3, 5⟩, ⟨7, 2⟩].map UsageMetadata.candidates_token_count).sum :=
  ⟨by decide, C10_unknown_model_costs_zero [⟨3, 5⟩, ⟨7, 2⟩] "gpt-4".toList (by decide)⟩

/-- C9: the copied presentation's title is exactly the original title followed
by a space and the target language in parentheses, with the string "Untitled"
used in place of a missing original title. -/
theorem C9_copy_title_format (env : CopyEnv) (presentation_id target_language : Str) :
    (∀ t, env.original_title = some t →
      (copy_presentation env presentation_id target_language).1.presentation_title =
        t ++ " (".toList ++ target_language ++ ")".toList) ∧
    (env.original_title = none →
      (copy_presentation env presentation_id target_language).1.presentation_title =
        "Untitled".toList ++ " (".toList ++ target_language ++ ")".toList) := by
  constructor
  · intro t ht
    simp [copy_presentation, ht]
  · intro ht
    simp [copy_presentation, ht]

/-- C9 witness: copying an untitled presentation for French yields the title
"Untitled (French)". -/
theorem C9_witness :
    (copy_presentation ⟨none, "abc123".toList⟩ "origid".toList
        "French".toList).1.presentation_title =
      "Untitled".toList ++ " (".toList ++ "French".toList ++ ")".toList :=
  (C9_copy_title_format ⟨none, "abc123".toList⟩ "origid".toList "French".toList).2 rfl

/-- C5: whenever credential negotiation yields the pending-authorization dict
instead of credentials, the tool returns that signal unchanged and performs no
service initialization, document access, copy, translation, or replacement
(its action trace is empty). -/
theorem C5_pending_short_circuits (state : ToolState) (env : CopyEnv)
    (presentation_id target_language : Str)
    (h : negotiate_creds state = .pendingDict) :
    translate_presentation state env presentation_id target_language =
      (.authRequest true awaitingMessage, []) := by
  unfold translate_presentation
  rw [h]

/-- C5 witness: an empty tool state (no cached token, no auth response) makes
negotiation pend, and the tool returns the signal with an empty action
trace. -/
theorem C5_witness :
    translate_presentation ⟨none, none⟩ ⟨none, "cid".toList⟩ "pid".toList "Spanish".toList =
      (.authRequest true awaitingMessage, []) :=
  C5_pending_short_circuits ⟨none, none⟩ ⟨none, "cid".toList⟩ "pid".toList "Spanish".toList
    (by decide)

/-- C1: on a completed run (credentials obtained), the report returned by the
active `translate_presentation` holds only the `new_presentation_url` field;
the fields the claim requires — distinct-fragment count, translated count,
occurrences changed, and input/output token totals — are all absent, because
every pipeline stage past the copy is commented out in the source. -/
theorem C1_report_lacks_claimed_fields (state : ToolState) (env : CopyEnv)
    (presentation_id target_language : Str) (c : Creds)
    (h : negotiate_creds state = .credentials c) :
    (translate_presentation state env presentation_id target_language).1 =
      .report [("new_presentation_url".toList,
        (copy_presentation env presentation_id target_language).1.presentation_url)] ∧
    ∀ key ∈ ["unique_text_runs_found".toList, "text_runs_translated".toList,
             "text_occurrences_changed".toList, "total_input_tokens".toList,
             "total_output_tokens".toList],
      key ∉ ([("new_presentation_url".toList,
        (copy_presentation env presentation_id target_language).1.presentation_url)].map
          Prod.fst) := by
  constructor
  · unfold translate_presentation
    rw [h]
  · intro key hk
    simp only [List.map_cons, List.map_nil]
    fin_cases hk <;> decide

/-- C1 witness: with a valid cached token the run completes, and the returned
report holds only the new presentation's URL. -/
theorem C1_witness :
    (translate_presentation c1State c1Env "p".toList "German".toList).1 =
      .report [("new_presentation_url".toList,
        (copy_presentation c1Env "p".toList "German".toList).1.presentation_url)] ∧
    ∀ key ∈ ["unique_text_runs_found".toList, "text_runs_translated".toList,
             "text_occurrences_changed".toList, "total_input_tokens".toList,
             "total_output_tokens".toList],
      key ∉ ([("new_presentation_url".toList,
        (copy_presentation c1Env "p".toList "German".toList).1.presentation_url)].map
          Prod.fst) :=
  C1_report_lacks_claimed_fields c1State c1Env "p".toList "German".toList
    (.cached ⟨true, true, false, false, false⟩) (by decide)

example : pyStrip "  Hello \n".toList = "Hello".toList := by decide

example :
    extract_presentation_texts
      [⟨"s1".toList, [.shape ⟨true, [⟨some ⟨" Hello ".toList⟩⟩]⟩]⟩,
       ⟨"s2".toList, [.shape ⟨true, [⟨some ⟨"Hello".toList⟩⟩, ⟨some ⟨"World".toList⟩⟩]⟩]⟩] =
    [("Hello".toList, ["s1".toList, "s2".toList]), ("World".toList, ["s2".toList])] := by
  decide

end SlidesTranslator
